import Mathlib

/-!
Verification of `dataconfig/parsers.py`.

The module walks a nested rule document (mappings / sequences / scalars),
classifies paths as configurable nodes, partitions them into leaves and
branches, resolves declared `type` / `validator` names against external
registries, and folds the results upward into one composite type.

The shallow embedding below mirrors the source functions one by one:
`_is_node`, `_nodes`, `_is_leaf`, `_leaves`, `_type`, `_validator`,
`_str_to_spec`, `_spec_to_type`, `_nested_type`, `_update_inplace` and
`get_config_t`.  Python exceptions are modelled with `Except`; the
non-fatal "ambiguous option" warning is modelled as a `Bool` flag threaded
through the pipeline.  External collaborators absent from the source
(`dataconfig.factory`, the `NS` registries) are modelled from the spec and
say so in their doc comments.
-/

namespace Dataconfig

/-- Mapping keys and sequence indices, `_Key_t = Union[str, int]`. -/
inductive Key where
  | str : String → Key
  | idx : Nat → Key
deriving DecidableEq, Repr

/-- Paths as understood by `boltons.iterutils`: `_Path_t = Tuple[_Key_t, ...]`. -/
abbrev Path := List Key

/-- Base capabilities a synthesized type can derive from.  `configIOBase` stands
for the `_ConfigIO` abstract base class of the source, which provides
construction from a parsed document (`from_yaml` / `from_json`) and export
back to a plain mapping (`to_dict` / `to_yaml` / `to_json`); the method
bodies only call external readers/writers, so the base is a marker here. -/
inductive BaseCap where
  | configIOBase
deriving DecidableEq, Repr

/-- Python values flowing through the parser: scalars, sequences, mappings,
plus the resolved objects that the source stores back into the working
copy of the document (registry types, parametrized registry types,
keyword-constructed registry types, validator classmethods, and the
dynamically created dataconfig classes). -/
inductive PyVal where
  | vstr : String → PyVal
  | vint : Int → PyVal
  | vbool : Bool → PyVal
  | vnone : PyVal
  | vlist : List PyVal → PyVal
  | vdict : List (String × PyVal) → PyVal
  | vtypeBase : String → PyVal
  | vtypeParam : String → List PyVal → PyVal
  | vtypeKw : String → List (String × PyVal) → PyVal
  | vmethod : String → String → PyVal → List (String × PyVal) → PyVal
  | vclass : String → List (String × PyVal × Option PyVal) →
      List (String × PyVal) → List BaseCap → PyVal

/-- Errors raised by the pipeline (Python exceptions).  `fuelOut` is an
artifact of the fuel-indexed loop below and is proved unreachable. -/
inductive Err where
  | keyError : Err
  | typeError : Err
  | lookupError : String → Err
  | pathError : Err
  | fuelOut : Err
deriving DecidableEq, Repr

/-- Type specification keys, order of keys important (`_type_spec`). -/
def _type_spec : List String :=
  ["type", "opts", "validator", "validator_opts", "validator_params",
   "root_validator", "default", "id", "doc"]

/-- Dictionary lookup by key (Python `dict.get` / `dict[...]`). -/
def dictGet : List (String × PyVal) → String → Option PyVal
  | [], _ => none
  | kv :: rest, k => if kv.1 == k then some kv.2 else dictGet rest k

/-- Dictionary assignment `d[k] = x`: updates the entry in place if the key
exists (keeping its position, like a Python dict), else appends it. -/
def dictSet : List (String × PyVal) → String → PyVal → List (String × PyVal)
  | [], k, x => [(k, x)]
  | kv :: rest, k, x =>
      if kv.1 == k then (k, x) :: rest else kv :: dictSet rest k x

/-- Python truthiness of a value. -/
def truthy : PyVal → Bool
  | .vstr s => s != ""
  | .vint n => n != 0
  | .vbool b => b
  | .vnone => false
  | .vlist l => !l.isEmpty
  | .vdict kvs => !kvs.isEmpty
  | _ => true

/-- `isinstance(x, Sequence)`: Python lists, tuples and strings are
sequences; mappings and other scalars are not. -/
def isSequence : PyVal → Bool
  | .vlist _ => true
  | .vstr _ => true
  | _ => false

/-- `isinstance(x, dict)`. -/
def isDictV : PyVal → Bool
  | .vdict _ => true
  | _ => false

/-- `tuple(opts)` for a sequence: a list yields its elements, a string
yields its characters as one-character strings. -/
def pyTuple : PyVal → List PyVal
  | .vlist l => l
  | .vstr s => s.toList.map (fun c => .vstr c.toString)
  | _ => []

/-- Python `needle in haystack` for the container shapes the source feeds
it: key membership for dicts, element equality against string elements for
lists, substring test for strings.  (On other values Python raises
`TypeError`; the pipeline only reaches this test on the shapes above.) -/
def pyContains (v : PyVal) (needle : String) : Bool :=
  match v with
  | .vdict kvs => (dictGet kvs needle).isSome
  | .vlist xs => xs.any (fun x => match x with | .vstr t => t == needle | _ => false)
  | .vstr s => (s.splitOn needle).length > 1
  | _ => false

/-- Attribute/key access as glom performs it on one path segment: key lookup
on mappings, and attribute access on a created class (its namespace members
and its defaulted fields are class attributes). -/
def pyAccess (v : PyVal) (seg : String) : Option PyVal :=
  match v with
  | .vdict kvs => dictGet kvs seg
  | .vclass _ fields ns _ =>
      match dictGet ns seg with
      | some x => some x
      | none => (fields.find? (fun f => f.1 == seg)).bind (fun f => f.2.2)
  | _ => none

/-- `x.items()`: succeeds only on mappings (`TypeError` otherwise). -/
def pyItems : PyVal → Except Err (List (String × PyVal))
  | .vdict kvs => .ok kvs
  | _ => .error .typeError

/-- String form of one path component, as `map(str, path)` produces it. -/
def keyStr : Key → String
  | .str s => s
  | .idx n => toString n

/-- `_path_to_glom_spec`: the dotted string spec handed to glom.  The
navigation functions below (`resolveKeys` / `assignKeys`) follow the key
path directly; for keys containing no `"."` (the regime the source
supports — a dotted key would make glom re-split the string and address a
different location) this is exactly how glom resolves the joined string. -/
def _path_to_glom_spec (path : Path) : String :=
  String.intercalate "." (path.map keyStr)

/-- Glom read access along a path: string keys index mappings, integer
keys index sequences. -/
def resolveKeys : PyVal → Path → Option PyVal
  | v, [] => some v
  | .vdict kvs, .str k :: rest => (dictGet kvs k).bind (fun c => resolveKeys c rest)
  | .vlist vs, .idx n :: rest => (vs.get? n).bind (fun c => resolveKeys c rest)
  | _, _ => none

/-- Glom `Assign` along a path: navigates to the parent of the last key and
assigns there (creating a missing final mapping key, as `d[k] = x` does;
a missing intermediate step or an out-of-range index is a
`PathAccessError`). -/
def assignKeys : PyVal → Path → PyVal → Except Err PyVal
  | .vdict kvs, .str k :: rest, x =>
      if rest.isEmpty then .ok (.vdict (dictSet kvs k x))
      else
        match dictGet kvs k with
        | some child => (assignKeys child rest x).map (fun c => .vdict (dictSet kvs k c))
        | none => .error .pathError
  | .vlist vs, .idx n :: rest, x =>
      if rest.isEmpty then
        if n < vs.length then .ok (.vlist (vs.set n x)) else .error .pathError
      else
        match vs.get? n with
        | some child => (assignKeys child rest x).map (fun c => .vlist (vs.set n c))
        | none => .error .pathError
  | _, _, _ => .error .pathError

mutual

/-- Entries visited by `boltons.iterutils.research` below a given path:
every key of every mapping and every index of every sequence, each visit
reporting `(path to the container, key, value)`.  Strings are scalars to
boltons, not containers. -/
def visitsVal (p : Path) : PyVal → List (Path × Key × PyVal)
  | .vdict kvs => visitsEntries p kvs
  | .vlist vs => visitsElems p 0 vs
  | _ => []

/-- Visits contributed by the entries of a mapping. -/
def visitsEntries (p : Path) : List (String × PyVal) → List (Path × Key × PyVal)
  | [] => []
  | (k, v) :: rest =>
      (p, Key.str k, v) :: (visitsVal (p ++ [Key.str k]) v ++ visitsEntries p rest)

/-- Visits contributed by the elements of a sequence, starting at index `i`. -/
def visitsElems (p : Path) (i : Nat) : List PyVal → List (Path × Key × PyVal)
  | [] => []
  | v :: rest =>
      (p, Key.idx i, v) :: (visitsVal (p ++ [Key.idx i]) v ++ visitsElems p (i + 1) rest)

end

/-- `_is_node`: detect a node in the configuration hierarchy.  `remap`
starts with the sentinel entry `(), None, ()`, rejected because its key is
`None`; otherwise the full path `path + (key,)` must contain none of the
type spec keys.  (Reserved keys are strings, so integer sequence indices
never match one.) -/
def _is_node (path : Path) (key : Option Key) (_value : PyVal) : Bool :=
  match key with
  | none => false
  | some k => _type_spec.all (fun t => !((path ++ [k]).contains (Key.str t)))

/-- All entries `research` queries for a document: the sentinel pre-root
visit `((), None, conf)` followed by every container entry. -/
def allVisits (conf : PyVal) : List (Path × Option Key × PyVal) :=
  ([], none, conf) :: (visitsVal [] conf).map (fun e => (e.1, some e.2.1, e.2.2))

/-- `_nodes`: the set of paths whose visit satisfies `_is_node`, each
reported as `path + (key,)`.  (The sentinel has no key to append; it never
satisfies `_is_node`, so that arm is unreachable.)  The Python set is
modelled as a deduplicated list. -/
def _nodes (conf : PyVal) : List Path :=
  ((allVisits conf).filterMap (fun e =>
    if _is_node e.1 e.2.1 e.2.2 then
      some (e.1 ++ (match e.2.1 with | some k => [k] | none => []))
    else none)).dedup

/-- `set(path).issubset(q)`: every key of `path` occurs somewhere in `q`. -/
def keySubset (p q : Path) : Bool := p.all (fun k => q.contains k)

/-- `_is_leaf`: a path is a leaf iff its key set is a subset of no other
path's key set. -/
def _is_leaf (path : Path) (paths : List Path) : Bool :=
  !(paths.any (fun q => q ≠ path && keySubset path q))

/-- `_leaves`: filter the list of paths for leaf nodes. -/
def _leaves (paths : List Path) : List Path :=
  paths.filter (fun p => _is_leaf p paths)

/-- `_type`: parse config and create the respective type.  The external
type registry `NS.types` (absent from the source tree) is modelled from
the spec as the list of names it can resolve: `getattr` succeeds exactly
on registered names, yielding the bare registry type.  Returns the
resolved type together with a flag recording whether the non-fatal
"ambiguous option ignored" warning was emitted. -/
def _type (treg : List String) (kvs : List (String × PyVal)) :
    Except Err (PyVal × Bool) :=
  let opts := (dictGet kvs "opts").getD .vnone
  let lookupT : Except Err String :=
    match dictGet kvs "type" with
    | none => .error .keyError
    | some (.vstr n) => if treg.contains n then .ok n else .error (.lookupError n)
    | some _ => .error .typeError
  if truthy opts && isSequence opts then
    lookupT.map (fun n => (.vtypeParam n (pyTuple opts), false))
  else if truthy opts && isDictV opts then
    lookupT.map (fun n =>
      (.vtypeKw n (match opts with | .vdict o => o | _ => []), false))
  else
    lookupT.map (fun n => (.vtypeBase n, truthy opts))

/-- `make_validator`.  Modelled from the spec: `dataconfig.factory` is not
in the source tree; per the spec the validator registry maps a factory and
a target key (the empty string denoting a whole-record validator), options
and params to a bound validator, returned as a one-entry
`Dict[str, classmethod]` keyed by the validator's own declared name. -/
def make_validator (func : String) (key : String) (opts : PyVal)
    (params : List (String × PyVal)) : PyVal :=
  .vdict [(func, .vmethod func key opts params)]

/-- `_validator`: parse config and create the respective validator method.
The external validator registry `NS.validators` is modelled from the spec
as the list of resolvable names.  The bound target key is `""` when
`root_validator` is truthy, else the field's own key. -/
def _validator (vreg : List String) (key : String)
    (kvs : List (String × PyVal)) : Except Err PyVal := do
  let fname ←
    match dictGet kvs "validator" with
    | none => .error .keyError
    | some (.vstr s) => if vreg.contains s then .ok s else .error (.lookupError s)
    | some _ => .error .typeError
  let key := if truthy ((dictGet kvs "root_validator").getD (.vbool false)) then "" else key
  let opts := (dictGet kvs "validator_opts").getD (.vdict [])
  let params ←
    match (dictGet kvs "validator_params").getD (.vdict []) with
    | .vdict ps => Except.ok ps
    | _ => .error .typeError
  .ok (make_validator fname key opts params)

/-- `_str_to_spec`: interpret the `type` and `validator` strings of a rule
mapping in place.  The `type` entry is rewritten first, then `_validator`
reads the updated mapping.  A non-mapping value supports the `in` test
only for lists and strings, and item assignment on neither, mirroring the
Python `TypeError`s. -/
def _str_to_spec (treg vreg : List String) (key : String) (value : PyVal) :
    Except Err (PyVal × Bool) :=
  match value with
  | .vdict kvs => do
      let kw ←
        if (dictGet kvs "type").isSome then
          (_type treg kvs).map (fun tw => (dictSet kvs "type" tw.1, tw.2))
        else Except.ok (kvs, false)
      let kvs2 ←
        if (dictGet kw.1 "validator").isSome then
          (_validator vreg key kw.1).map (fun v => dictSet kw.1 "validator" v)
        else Except.ok kw.1
      .ok (.vdict kvs2, kw.2)
  | .vlist xs =>
      if pyContains (.vlist xs) "type" || pyContains (.vlist xs) "validator" then
        .error .typeError
      else .ok (.vlist xs, false)
  | .vstr s =>
      if pyContains (.vstr s) "type" || pyContains (.vstr s) "validator" then
        .error .typeError
      else .ok (.vstr s, false)
  | _ => .error .typeError

/-- Field extraction of `_spec_to_type` for one `(k, v)` item: glom spec
`{"k": "0", "v": "1.type", "d": Coalesce("1.default", default=SKIP)}` —
the field name, the value's `type` entry (a missing one is a fatal
`PathAccessError`), and its optional `default`. -/
def extractField (k : String) (v : PyVal) :
    Except Err (String × PyVal × Option PyVal) :=
  match pyAccess v "type" with
  | some t => .ok (k, t, pyAccess v "default")
  | none => .error .pathError

/-- Monadic map over `Except` (glom applying a spec to each list item,
failing on the first error). -/
def mapE (f : α → Except Err β) : List α → Except Err (List β)
  | [] => .ok []
  | a :: as =>
      match f a with
      | .error e => .error e
      | .ok b => (mapE f as).map (fun bs => b :: bs)

/-- Python `dict(pairs)`: later duplicate keys overwrite in place. -/
def dictOfPairs (pairs : List (String × PyVal)) : List (String × PyVal) :=
  pairs.foldl (fun acc kv => dictSet acc kv.1 kv.2) []

/-- `_spec_to_type`: create the custom type object from a specification
mapping.  Items without a `default` keep their original order and precede
the items with a `default` (also in original order); each item contributes
`(name, type, optional default)`; the namespace chains the `items()` of
every value's `validator` entry (defaulting to `{}`); the result is
`make_dataconfig(f"{key}_t", fields, namespace=ns, bases=bases)`, with
`make_dataconfig` modelled from the spec (it is in the absent
`dataconfig.factory`) as the record of exactly those inputs. -/
def _spec_to_type (key : String) (value : PyVal) (bases : List BaseCap) :
    Except Err PyVal :=
  match value with
  | .vdict kvs => do
      let reordered :=
        kvs.filter (fun kv => !(pyContains kv.2 "default")) ++
        kvs.filter (fun kv => pyContains kv.2 "default")
      let fields ← mapE (fun kv => extractField kv.1 kv.2) reordered
      let nss ← mapE (fun kv => pyItems ((pyAccess kv.2 "validator").getD (.vdict []))) kvs
      .ok (.vclass (key ++ "_t") fields (dictOfPairs nss.flatten) bases)
  | _ => .error .typeError

/-- `_nested_type`: create the type dictionary for a nested (non-leaf)
node: `{"type": _spec_to_type(key, value), "validator": _str_to_spec(key,
value)}`, the dict display evaluating `_spec_to_type` first. -/
def _nested_type (treg vreg : List String) (key : String) (value : PyVal) :
    Except Err (PyVal × Bool) := do
  let t ← _spec_to_type key value []
  let vw ← _str_to_spec treg vreg key value
  .ok (.vdict [("type", t), ("validator", vw.1)], vw.2)

/-- `functools.reduce` over `Except` (the first raised exception aborts). -/
def foldE (f : σ → α → Except Err σ) : σ → List α → Except Err σ
  | st, [] => .ok st
  | st, a :: as =>
      match f st a with
      | .error e => .error e
      | .ok st' => foldE f st' as

/-- `_update_inplace(func)`: reassign the item at `path` to
`func(path[-1], item)`, threading the warning flag.  An empty path fails
at `path[-1]` (`IndexError`). -/
def _update_inplace (f : String → PyVal → Except Err (PyVal × Bool))
    (st : PyVal × Bool) (path : Path) : Except Err (PyVal × Bool) := do
  let last ←
    match path.getLast? with
    | some k => Except.ok (keyStr k)
    | none => .error .pathError
  let target ←
    match resolveKeys st.1 path with
    | some v => Except.ok v
    | none => .error .pathError
  let rw ← f last target
  let conf ← assignKeys st.1 path rw.1
  .ok (conf, st.2 || rw.2)

/-- One step of the while loop of `get_config_t`:
`branches = {path[:-1] for path in branches if path[:-1]}`. -/
def nextRing (branches : List Path) : List Path :=
  (branches.filterMap (fun p =>
    let q := p.dropLast
    if q.isEmpty then none else some q)).dedup

/-- Length of the longest path in a list (0 for the empty list). -/
def maxLen (ps : List Path) : Nat :=
  (ps.map List.length).foldr max 0

/-- The while loop of `get_config_t`, indexed by a fuel count: each round
reduces the current branch set into the working copy, then replaces it by
the set of non-empty parents.  The fuel only bounds the recursion for
Lean; `get_config_t` passes `maxLen branches`, which is proved sufficient
(the `fuelOut` branch is unreachable), so the loop runs exactly as the
unbounded Python loop does. -/
def branchRounds (f : (PyVal × Bool) → Path → Except Err (PyVal × Bool)) :
    Nat → List Path → (PyVal × Bool) → Except Err (PyVal × Bool)
  | _, [], st => .ok st
  | 0, _ :: _, _ => .error .fuelOut
  | fuel + 1, branches, st =>
      match foldE f st branches with
      | .error e => .error e
      | .ok st' => branchRounds f fuel (nextRing branches) st'

/-- The successive branch sets the while loop of `get_config_t` processes,
starting from a given branch set (same recursion as `branchRounds`, state
dropped). -/
def ringSeq : Nat → List Path → List (List Path)
  | _, [] => []
  | 0, _ :: _ => []
  | fuel + 1, branches => branches :: ringSeq fuel (nextRing branches)

/-- `get_config_t`: read the config dictionary and create the config type.
Classifies the nodes, resolves every leaf in the deep copy, walks the
branch rounds upward, and synthesizes the root type named `"config"` with
the `_ConfigIO` base.  Returns the type together with the flag saying
whether any non-fatal warning was emitted on the way. -/
def get_config_t (treg vreg : List String) (conf : PyVal) :
    Except Err (PyVal × Bool) := do
  let paths := _nodes conf
  let leaves := _leaves paths
  let st ← foldE (_update_inplace (_str_to_spec treg vreg)) (conf, false) leaves
  let rest := paths.filter (fun p => !(_is_leaf p paths))
  let branches := _leaves rest
  let st ← branchRounds (_update_inplace (_nested_type treg vreg))
      (maxLen branches) branches st
  let t ← _spec_to_type "config" st.1 [.configIOBase]
  .ok (t, st.2)

/-- The per-round branch sets of `get_config_t`'s while loop for a
document: round 1 is `_leaves(paths - leaves)`, each later round the set
of non-empty parents of the previous one. -/
def ringsOf (conf : PyVal) : List (List Path) :=
  let paths := _nodes conf
  let rest := paths.filter (fun p => !(_is_leaf p paths))
  let branches := _leaves rest
  ringSeq (maxLen branches) branches

/-- Paths research reports (each visit's `path + (key,)`), sentinel aside. -/
def visitPaths (conf : PyVal) : List Path :=
  (visitsVal [] conf).map (fun e => e.1 ++ [e.2.1])

/-- One key path is an ancestor chain of another: `p ++ t = q`. -/
def Leads (p q : Path) : Prop := ∃ t, p ++ t = q

/-- Observe the target key bound inside the result of `make_validator`. -/
def bindingTarget : PyVal → Option String
  | .vdict [(_, .vmethod _ t _ _)] => some t
  | _ => none

/-- Observe whether a resolved-rule result is the bare registry type with
the ambiguous-option warning raised, the outcome the spec predicts for a
scalar `opts`. -/
def isBareWarned : Except Err (PyVal × Bool) → Bool
  | .ok (.vtypeBase _, true) => true
  | _ => false

/-- Observe the `validator` entry of an interpreter result. -/
def validatorSlot : Except Err (PyVal × Bool) → Option PyVal
  | .ok (.vdict kvs, _) => dictGet kvs "validator"
  | _ => none

/-- Observe whether a value is a validator binding as `make_validator`
builds them (a one-entry classmethod dictionary). -/
def isBinding : Option PyVal → Bool
  | some (.vdict [(_, .vmethod _ _ _ _)]) => true
  | _ => false

/-- Observe the base classes of a created type. -/
def basesOf : PyVal → Option (List BaseCap)
  | .vclass _ _ _ bs => some bs
  | _ => none

/-- Observe the base classes of the `type` entry of an interpreter result. -/
def typeSlotBases (r : Except Err (PyVal × Bool)) : Option (List BaseCap) :=
  match r with
  | .ok (.vdict kvs, _) =>
      match dictGet kvs "type" with
      | some t => basesOf t
      | none => none
  | _ => none

/-- Observe the field names of a created type, in order. -/
def fieldNames : Except Err PyVal → Option (List String)
  | .ok (.vclass _ fields _ _) => some (fields.map (fun f => f.1))
  | _ => none

/-- A rule mapping that names a registry entry absent from the external
registries: its `type` entry is a name outside the type registry, or its
`validator` entry a name outside the validator registry. -/
def badRule (treg vreg : List String) (kvs : List (String × PyVal)) : Bool :=
  (match dictGet kvs "type" with
   | some (.vstr n) => !treg.contains n
   | _ => false) ||
  (match dictGet kvs "validator" with
   | some (.vstr s) => !vreg.contains s
   | _ => false)

/-- The leaf at `p` names an unknown type or validator. -/
def badLeafAt (treg vreg : List String) (conf : PyVal) (p : Path) : Bool :=
  match resolveKeys conf p with
  | some (.vdict kvs) => badRule treg vreg kvs
  | _ => false

/-- A minimal leaf rule: `{"type": "int"}`. -/
def leafInt : PyVal := .vdict [("type", .vstr "int")]

/-- A one-leaf document, `{"a": {"type": "int"}}`. -/
def confOne : PyVal := .vdict [("a", leafInt)]

/-- The root type `get_config_t` synthesizes for `confOne`. -/
def confOneT : PyVal :=
  .vclass "config_t" [("a", .vtypeBase "int", none)] [] [.configIOBase]

/-- A document whose sibling branches sit at different depths:
`{"a": {"d": {"x": {"type": "int"}}, "b": {"c": {"y": {"type": "int"}}}}}`.
Branch `("a",)` has the leaf child `("a","d")`-subtree at depth 2 and the
branch child `("a","b")` whose own leaf sits at depth 4. -/
def confUneven : PyVal := .vdict [("a", .vdict
  [("d", .vdict [("x", leafInt)]),
   ("b", .vdict [("c", .vdict [("y", leafInt)])])])]

/-- A document whose only leaf names a type missing from the registry:
`{"a": {"type": "nope"}}`. -/
def confBadName : PyVal := .vdict [("a", .vdict [("type", .vstr "nope")])]

/-- A branch value whose children are already resolved and which declares
no validator of its own. -/
def resolvedChildren : List (String × PyVal) :=
  [("foo", .vdict [("type", .vtypeBase "int")])]

/-- Rule with a scalar string `opts`: `{"type": "T", "opts": "bad"}`. -/
def ruleBadOpts : List (String × PyVal) :=
  [("type", .vstr "T"), ("opts", .vstr "bad")]

/-- Field specification `{a: {type: T}, b: {type: U, default: d}}`. -/
def exFieldsAB : List (String × PyVal) :=
  [("a", .vdict [("type", .vstr "T")]),
   ("b", .vdict [("type", .vstr "U"), ("default", .vint 1)])]

/-- Field specification `{b: {type: U, default: d}, a: {type: T}}`. -/
def exFieldsBA : List (String × PyVal) :=
  [("b", .vdict [("type", .vstr "U"), ("default", .vint 1)]),
   ("a", .vdict [("type", .vstr "T")])]

/-! ### Dictionary lemmas -/

theorem dictGet_filterOut (kvs : List (String × PyVal)) (bad k : String)
    (h : k ≠ bad) :
    dictGet (kvs.filter (fun kv => kv.1 != bad)) k = dictGet kvs k := by
  induction kvs with
  | nil => rfl
  | cons a as ih =>
      by_cases hb : a.1 = bad
      · have hk : (a.1 == k) = false := by simp [hb, Ne.symm h]
        simp [List.filter_cons, hb, dictGet, hk, ih, h, Ne.symm h]
      · by_cases hk : a.1 = k
        · simp [List.filter_cons, hb, dictGet, hk, h, Ne.symm h]
        · simp [List.filter_cons, hb, dictGet, hk, ih, h, Ne.symm h]

theorem dictGet_filterOut_self (kvs : List (String × PyVal)) (bad : String) :
    dictGet (kvs.filter (fun kv => kv.1 != bad)) bad = none := by
  induction kvs with
  | nil => rfl
  | cons a as ih =>
      by_cases hb : a.1 = bad
      · simpa [List.filter_cons, hb] using ih
      · simpa [List.filter_cons, hb, dictGet] using ih

theorem dictGet_dictSet_self (kvs : List (String × PyVal)) (k : String)
    (x : PyVal) : dictGet (dictSet kvs k x) k = some x := by
  induction kvs with
  | nil => simp [dictSet, dictGet]
  | cons a as ih =>
      by_cases ha : a.1 = k
      · simp [dictSet, dictGet, ha]
      · simp [dictSet, dictGet, ha, ih]

theorem dictGet_dictSet_ne (kvs : List (String × PyVal)) (k k' : String)
    (x : PyVal) (h : k' ≠ k) :
    dictGet (dictSet kvs k x) k' = dictGet kvs k' := by
  induction kvs with
  | nil => simp [dictSet, dictGet, Ne.symm h]
  | cons a as ih =>
      by_cases ha : a.1 = k
      · simp [dictSet, dictGet, ha, Ne.symm h]
      · simp [dictSet, dictGet, ha, ih]

/-! ### C2: shape dispatch of `_type` on `opts` -/

/-- C2 (counterexample): for the rule `{"type": "T", "opts": "bad"}` the
claim predicts the warned bare registry type, but the shape dispatch takes
the ordered-sequence branch — Python strings are sequences — and yields
the parametrized type `T[("b", "a", "d")]` with no warning. -/
theorem c2_counterexample :
    _type ["T"] ruleBadOpts =
      .ok (.vtypeParam "T" [.vstr "b", .vstr "a", .vstr "d"], false) ∧
    isBareWarned (_type ["T"] ruleBadOpts) = false := by
  constructor <;> rfl

/-- C2 (amended): with a `type` key naming a registered type, a non-empty
sequence `opts` — a list, or a string, strings being Python sequences —
triggers parametrized construction; a non-empty mapping triggers keyword
construction; a truthy value of any other shape (for example a non-zero
number) is ignored: the bare registry type is used and the non-fatal
ambiguous-option warning is emitted, matching the type resolved when
`opts` is absent. -/
theorem c2_amended (treg : List String) (kvs : List (String × PyVal))
    (n : String) (hn : dictGet kvs "type" = some (.vstr n))
    (hreg : treg.contains n = true) :
    (∀ l, l ≠ ([] : List PyVal) → dictGet kvs "opts" = some (.vlist l) →
      _type treg kvs = .ok (.vtypeParam n l, false)) ∧
    (∀ s : String, s ≠ "" → dictGet kvs "opts" = some (.vstr s) →
      _type treg kvs =
        .ok (.vtypeParam n (s.toList.map (fun c => .vstr c.toString)), false)) ∧
    (∀ o, o ≠ ([] : List (String × PyVal)) →
      dictGet kvs "opts" = some (.vdict o) →
      _type treg kvs = .ok (.vtypeKw n o, false)) ∧
    (∀ m : Int, m ≠ 0 → dictGet kvs "opts" = some (.vint m) →
      _type treg kvs = .ok (.vtypeBase n, true)) ∧
    (dictGet kvs "opts" = none → _type treg kvs = .ok (.vtypeBase n, false)) := by
  have hmem : n ∈ treg := by simpa using hreg
  refine ⟨fun l hl ho => ?_, fun s hs ho => ?_, fun o hyo ho => ?_,
    fun m hm ho => ?_, fun ho => ?_⟩
  · simp [_type, hn, ho, hmem, truthy, isSequence, isDictV, pyTuple, hl,
      Except.map]
  · simp [_type, hn, ho, hmem, truthy, isSequence, isDictV, pyTuple, hs,
      Except.map]
  · simp [_type, hn, ho, hmem, truthy, isSequence, isDictV, pyTuple, hyo,
      List.isEmpty_iff, Except.map]
  · simp [_type, hn, ho, hmem, truthy, isSequence, isDictV, pyTuple, hm,
      Except.map, bne_iff_ne]
  · simp [_type, hn, ho, hmem, truthy, isSequence, isDictV, pyTuple,
      Except.map]

/-- C2 (witness): the amended dispatch at concrete inputs — `opts = [1, 2]`
parametrizes, `opts = {"x": 1}` keyword-constructs, `opts = 5` warns and
falls back to the bare type. -/
theorem c2_amended_witness :
    _type ["T"] [("type", .vstr "T"), ("opts", .vlist [.vint 1, .vint 2])] =
      .ok (.vtypeParam "T" [.vint 1, .vint 2], false) ∧
    _type ["T"] [("type", .vstr "T"), ("opts", .vdict [("x", .vint 1)])] =
      .ok (.vtypeKw "T" [("x", .vint 1)], false) ∧
    _type ["T"] [("type", .vstr "T"), ("opts", .vint 5)] =
      .ok (.vtypeBase "T", true) := by
  refine ⟨(c2_amended ["T"]
      [("type", .vstr "T"), ("opts", .vlist [.vint 1, .vint 2])] "T"
      rfl rfl).1 _ (by simp) rfl,
    ((c2_amended ["T"]
      [("type", .vstr "T"), ("opts", .vdict [("x", .vint 1)])] "T"
      rfl rfl).2.2).1 _ (by simp) rfl,
    ((c2_amended ["T"]
      [("type", .vstr "T"), ("opts", .vint 5)] "T"
      rfl rfl).2.2.2).1 5 (by simp) rfl⟩

/-! ### C10: falsy `opts` -/

/-- C10: a present but falsy `opts` (for instance an empty sequence, an
empty mapping, zero, or false) resolves to the bare registry type with no
warning emitted, exactly the behaviour for an absent `opts` key: the
dispatch tests truthiness before shape. -/
theorem c10_falsy_opts (treg : List String) (kvs : List (String × PyVal))
    (n : String) (o : PyVal)
    (hn : dictGet kvs "type" = some (.vstr n)) (hreg : treg.contains n = true)
    (ho : dictGet kvs "opts" = some o) (hf : truthy o = false) :
    _type treg kvs = .ok (.vtypeBase n, false) ∧
    _type treg kvs = _type treg (kvs.filter (fun kv => kv.1 != "opts")) := by
  have hmem : n ∈ treg := by simpa using hreg
  have h1 : _type treg kvs = .ok (.vtypeBase n, false) := by
    simp [_type, hn, ho, hmem, hf, Except.map]
  have h2 : dictGet (kvs.filter (fun kv => kv.1 != "opts")) "type" =
      some (.vstr n) := by
    rw [dictGet_filterOut _ _ _ (by decide)]; exact hn
  have h3 : _type treg (kvs.filter (fun kv => kv.1 != "opts")) =
      .ok (.vtypeBase n, false) := by
    simp [_type, h2, dictGet_filterOut_self, hmem, truthy, Except.map]
  exact ⟨h1, h1.trans h3.symm⟩

/-- C10 (witness): the rule `{"type": "T", "opts": []}` resolves to the
bare type `T` with no warning, as does the same rule with `opts` dropped. -/
theorem c10_witness :
    _type ["T"] [("type", .vstr "T"), ("opts", .vlist [])] =
      .ok (.vtypeBase "T", false) ∧
    _type ["T"] [("type", .vstr "T"), ("opts", .vlist [])] =
      _type ["T"] [("type", .vstr "T")] := by
  have h := c10_falsy_opts ["T"] [("type", .vstr "T"), ("opts", .vlist [])]
    "T" (.vlist []) rfl rfl rfl rfl
  exact ⟨h.1, h.2⟩

/-! ### C8: validator target key -/

/-- C8: the validator binding built for a rule targets the empty string
exactly when the rule's `root_validator` value is truthy, and the field's
own key otherwise; in particular `root_validator: true` installs a
whole-record binding whose target is the empty string, not the field's
key. -/
theorem c8_validator_target (vreg : List String) (key : String)
    (kvs : List (String × PyVal)) (v : PyVal)
    (h : _validator vreg key kvs = .ok v) :
    bindingTarget v = some
      (if truthy ((dictGet kvs "root_validator").getD (.vbool false)) then ""
       else key) := by
  rcases hv : dictGet kvs "validator" with _ | fv
  · simp [_validator, hv, bind, Except.bind] at h
  · rcases fv with s | n | b | _ | l | d | tb | ⟨tn, ta⟩ | ⟨kn, ka⟩ |
      ⟨m1, m2, m3, m4⟩ | ⟨c1, c2, c3, c4⟩ <;>
      simp only [_validator, hv, bind, Except.bind] at h <;>
      try exact Except.noConfusion h
    by_cases hs : vreg.contains s = true
    · rw [if_pos hs] at h
      rcases hp : (dictGet kvs "validator_params").getD (.vdict []) with
        _ | _ | _ | _ | _ | ps | _ | _ | _ | _ | _ <;> rw [hp] at h <;>
        simp only [bind, Except.bind] at h <;> try exact Except.noConfusion h
      injection h with h2
      subst h2
      simp [make_validator, bindingTarget]
    · rw [if_neg hs] at h
      exact Except.noConfusion h

/-- C8 (witness): concrete bindings — with `root_validator: true` the
built binding targets `""`; without it, the field's own key `"f"`. -/
theorem c8_witness :
    _validator ["pos"] "f"
      [("validator", .vstr "pos"), ("root_validator", .vbool true)] =
      .ok (.vdict [("pos", .vmethod "pos" "" (.vdict []) [])]) ∧
    bindingTarget (.vdict [("pos", .vmethod "pos" "" (.vdict []) [])]) =
      some "" ∧
    bindingTarget (.vdict [("pos", .vmethod "pos" "f" (.vdict []) [])]) =
      some "f" := by
  refine ⟨rfl, ?_, ?_⟩
  · have h := c8_validator_target ["pos"] "f"
      [("validator", .vstr "pos"), ("root_validator", .vbool true)] _ rfl
    simpa using h
  · have h := c8_validator_target ["pos"] "f" [("validator", .vstr "pos")] _ rfl
    simpa using h

/-! ### C4: field order in `_spec_to_type` -/

theorem mapE_extractField_names (l : List (String × PyVal))
    (fs : List (String × PyVal × Option PyVal))
    (h : mapE (fun kv => extractField kv.1 kv.2) l = .ok fs) :
    fs.map (fun f => f.1) = l.map (fun kv => kv.1) := by
  induction l generalizing fs with
  | nil =>
      simp only [mapE] at h
      injection h with h2
      subst h2
      rfl
  | cons a as ih =>
      simp only [mapE] at h
      cases hx : extractField a.1 a.2 with
      | error e => rw [hx] at h; exact Except.noConfusion h
      | ok b =>
          rw [hx] at h
          cases hrest : mapE (fun kv => extractField kv.1 kv.2) as with
          | error e => rw [hrest] at h; exact Except.noConfusion h
          | ok bs =>
              rw [hrest] at h
              simp only [Except.map] at h
              injection h with h2
              subst h2
              have hb : b.1 = a.1 := by
                unfold extractField at hx
                cases hacc : pyAccess a.2 "type" with
                | none => rw [hacc] at hx; exact Except.noConfusion hx
                | some t =>
                    rw [hacc] at hx
                    injection hx with hx2
                    subst hx2
                    rfl
              simp [hb, ih bs hrest]

/-- C4: the field order of a synthesized composite type is the original
declaration order restricted to fields without a `default`, followed by
the fields with a `default` in their original relative order; in
particular `{a: {type: T}, b: {type: U, default: d}}` and
`{b: {type: U, default: d}, a: {type: T}}` both yield field order
`(a, b)`. -/
theorem c4_field_order (key : String) (kvs : List (String × PyVal))
    (bases : List BaseCap) (nm : String)
    (fields : List (String × PyVal × Option PyVal))
    (ns : List (String × PyVal)) (bs : List BaseCap)
    (h : _spec_to_type key (.vdict kvs) bases = .ok (.vclass nm fields ns bs)) :
    fields.map (fun f => f.1) =
      (kvs.filter (fun kv => !(pyContains kv.2 "default"))).map (fun kv => kv.1) ++
      (kvs.filter (fun kv => pyContains kv.2 "default")).map (fun kv => kv.1) ∧
    fieldNames (_spec_to_type "r" (.vdict exFieldsAB) []) = some ["a", "b"] ∧
    fieldNames (_spec_to_type "r" (.vdict exFieldsBA) []) = some ["a", "b"] := by
  refine ⟨?_, rfl, rfl⟩
  unfold _spec_to_type at h
  simp only [bind, Except.bind] at h
  cases hf : mapE (fun kv => extractField kv.1 kv.2)
      (kvs.filter (fun kv => !(pyContains kv.2 "default")) ++
       kvs.filter (fun kv => pyContains kv.2 "default")) with
  | error e => rw [hf] at h; exact Except.noConfusion h
  | ok fs =>
      rw [hf] at h
      cases hn2 : mapE
          (fun kv => pyItems ((pyAccess kv.2 "validator").getD (.vdict []))) kvs with
      | error e => rw [hn2] at h; exact Except.noConfusion h
      | ok nss =>
          rw [hn2] at h
          injection h with h2
          injection h2 with e1 e2 e3 e4
          subst e2
          simpa [List.map_append] using mapE_extractField_names _ _ hf

/-- C4 (witness): the ordering law applied to the concrete specification
`{a: {type: T}, b: {type: U, default: d}}`. -/
theorem c4_field_order_witness :
    (([("a", (.vstr "T" : PyVal), (none : Option PyVal)),
       ("b", .vstr "U", some (.vint 1))]).map (fun f => f.1) =
      ((exFieldsAB.filter (fun kv => !(pyContains kv.2 "default"))).map
        (fun kv => kv.1) ++
       (exFieldsAB.filter (fun kv => pyContains kv.2 "default")).map
        (fun kv => kv.1))) ∧
    fieldNames (_spec_to_type "r" (.vdict exFieldsAB) []) = some ["a", "b"] := by
  have h := c4_field_order "r" exFieldsAB [] "r_t"
    [("a", .vstr "T", none), ("b", .vstr "U", some (.vint 1))] [] [] rfl
  exact ⟨h.1, h.2.1⟩

/-! ### C3: shape of `_nested_type` results -/

/-- C3 (counterexample): for a branch whose children are already resolved
and which declares no validator of its own, the `validator` entry of the
`_nested_type` result is the children mapping itself, unchanged — not a
validator binding produced by the root/field-target logic as the claim
states. -/
theorem c3_counterexample :
    validatorSlot (_nested_type [] [] "a" (.vdict resolvedChildren)) =
      some (.vdict resolvedChildren) ∧
    isBinding (validatorSlot (_nested_type [] [] "a" (.vdict resolvedChildren))) =
      false := by
  constructor <;> rfl

/-- C3 (amended): for every branch mapping of already-resolved children
whose type synthesis succeeds and which carries no `type` / `validator`
key of its own, `resolve_branch` returns a mapping with exactly the two
keys `type` and `validator`, shaped like a resolved leaf: `type` is the
composite type synthesized from the resolved children, while `validator`
is the children mapping handed back unchanged by the leaf interpreter
(which would only resolve a `validator` entry were one present) — not a
validator binding. -/
theorem c3_amended (treg vreg : List String) (key : String)
    (kvs : List (String × PyVal)) (t : PyVal)
    (h1 : dictGet kvs "type" = none) (h2 : dictGet kvs "validator" = none)
    (h3 : _spec_to_type key (.vdict kvs) [] = .ok t) :
    _nested_type treg vreg key (.vdict kvs) =
      .ok (.vdict [("type", t), ("validator", .vdict kvs)], false) := by
  unfold _nested_type
  simp only [h3, bind, Except.bind]
  unfold _str_to_spec
  simp [h1, h2, bind, Except.bind]

/-- C3 (witness): the amended shape at the concrete resolved branch. -/
theorem c3_amended_witness :
    _nested_type [] [] "a" (.vdict resolvedChildren) =
      .ok (.vdict
        [("type", .vclass "a_t" [("foo", .vtypeBase "int", none)] [] []),
         ("validator", .vdict resolvedChildren)], false) :=
  c3_amended [] [] "a" resolvedChildren _ rfl rfl rfl

/-! ### C5: node classification -/

/-- C5: `classify` reports a visited path as a node iff none of the nine
reserved spec keys appears anywhere along that path, the terminal key
included (reserved keys are strings, so sequence indices never match);
and the conceptual pre-root sentinel visit, whose key is `None`, is never
reported as a node, whatever the document. -/
theorem c5_classify (conf : PyVal) (p : Path) :
    (p ∈ _nodes conf ↔
      (p ∈ visitPaths conf ∧
        _type_spec.all (fun t => !(p.contains (Key.str t))) = true)) ∧
    (∀ v : PyVal, _is_node [] none v = false) := by
  refine ⟨⟨fun hp => ?_, fun hp => ?_⟩, fun v => rfl⟩
  · unfold _nodes at hp
    rw [List.mem_dedup] at hp
    rcases List.mem_filterMap.mp hp with ⟨e, he, hcond⟩
    rcases List.mem_cons.mp he with heq | he2
    · subst heq
      simp [_is_node] at hcond
    · rcases List.mem_map.mp he2 with ⟨w, hw, hwe⟩
      subst hwe
      by_cases hn : _is_node w.1 (some w.2.1) w.2.2 = true
      · rw [if_pos hn] at hcond
        injection hcond with hc
        subst hc
        refine ⟨List.mem_map.mpr ⟨w, hw, rfl⟩, ?_⟩
        simpa [_is_node] using hn
      · rw [if_neg hn] at hcond
        exact Option.noConfusion hcond
  · rcases hp with ⟨hvp, hcond⟩
    rcases List.mem_map.mp hvp with ⟨w, hw, hwe⟩
    unfold _nodes
    rw [List.mem_dedup]
    refine List.mem_filterMap.mpr ⟨(w.1, some w.2.1, w.2.2), ?_, ?_⟩
    · exact List.mem_cons.mpr (Or.inr (List.mem_map.mpr ⟨w, hw, rfl⟩))
    · have hn : _is_node w.1 (some w.2.1) w.2.2 = true := by
        simp only [_is_node]
        simpa [hwe] using hcond
      rw [if_pos hn]
      simpa using hwe

/-! ### C7: I/O capability bases -/

theorem spec_to_type_bases (key : String) (value : PyVal)
    (bases : List BaseCap) (t : PyVal)
    (h : _spec_to_type key value bases = .ok t) :
    basesOf t = some bases := by
  unfold _spec_to_type at h
  cases value <;> try exact Except.noConfusion h
  case vdict kvs =>
    simp only [bind, Except.bind] at h
    rcases hf : mapE (fun kv => extractField kv.1 kv.2)
        (kvs.filter (fun kv => !(pyContains kv.2 "default")) ++
         kvs.filter (fun kv => pyContains kv.2 "default")) with e | fs <;>
      rw [hf] at h
    · exact Except.noConfusion h
    · rcases hn : mapE
          (fun kv => pyItems ((pyAccess kv.2 "validator").getD (.vdict []))) kvs
          with e | nss <;> rw [hn] at h
      · exact Except.noConfusion h
      · injection h with h2
        subst h2
        rfl

/-- C7: the `_ConfigIO` base capability (construct-from-document plus
export-to-mapping) is attached exactly at the root: every composite type
built for a nested branch carries no base capability types, and the
composite type `get_config_t` returns for the document root carries
exactly the `_ConfigIO` base. -/
theorem c7_io_bases :
    (∀ (treg vreg : List String) (key : String) (value v : PyVal) (w : Bool),
      _nested_type treg vreg key value = .ok (v, w) →
      typeSlotBases (_nested_type treg vreg key value) = some []) ∧
    (∀ (treg vreg : List String) (conf t : PyVal) (w : Bool),
      get_config_t treg vreg conf = .ok (t, w) →
      basesOf t = some [.configIOBase]) := by
  constructor
  · intro treg vreg key value v w h
    rw [h]
    unfold _nested_type at h
    simp only [bind, Except.bind] at h
    rcases hs : _spec_to_type key value [] with e | t0 <;> rw [hs] at h
    · exact Except.noConfusion h
    · rcases hv : _str_to_spec treg vreg key value with e | vw <;> rw [hv] at h
      · exact Except.noConfusion h
      · injection h with h2
        injection h2 with h3 h4
        subst h3
        simpa [typeSlotBases, dictGet] using spec_to_type_bases _ _ _ _ hs
  · intro treg vreg conf t w h
    unfold get_config_t at h
    simp only [bind, Except.bind] at h
    rcases h1 : foldE (_update_inplace (_str_to_spec treg vreg)) (conf, false)
        (_leaves (_nodes conf)) with e | st1 <;> simp only [h1] at h
    · exact Except.noConfusion h
    · rcases h2 : branchRounds (_update_inplace (_nested_type treg vreg))
          (maxLen (_leaves ((_nodes conf).filter
            (fun p => !(_is_leaf p (_nodes conf))))))
          (_leaves ((_nodes conf).filter
            (fun p => !(_is_leaf p (_nodes conf))))) st1 with e | st2 <;>
        simp only [h2] at h
      · exact Except.noConfusion h
      · rcases h3 : _spec_to_type "config" st2.1 [.configIOBase] with e | t0 <;>
          simp only [h3] at h
        · exact Except.noConfusion h
        · injection h with h4
          injection h4 with h5 h6
          subst h5
          exact spec_to_type_bases _ _ _ _ h3

/-- C7 (witness): the one-leaf document synthesizes a root type deriving
from `_ConfigIO`, and a concrete nested branch synthesizes with no
bases. -/
theorem c7_io_bases_witness :
    get_config_t ["int"] [] confOne = .ok (confOneT, false) ∧
    basesOf confOneT = some [.configIOBase] ∧
    typeSlotBases (_nested_type [] [] "a" (.vdict resolvedChildren)) =
      some [] := by
  refine ⟨rfl, c7_io_bases.2 ["int"] [] confOne confOneT false rfl, ?_⟩
  exact c7_io_bases.1 [] [] "a" (.vdict resolvedChildren)
    (.vdict [("type", .vclass "a_t" [("foo", .vtypeBase "int", none)] [] []),
             ("validator", .vdict resolvedChildren)]) false rfl

/-! ### Fuel sufficiency and round bounds for the while loop -/

theorem ne_fuel_bind {α β : Type} {x : Except Err α} {g : α → Except Err β}
    (hx : x ≠ .error .fuelOut) (hg : ∀ a, g a ≠ .error .fuelOut) :
    x >>= g ≠ .error .fuelOut := by
  cases x with
  | error e => simpa [bind, Except.bind] using hx
  | ok a => simpa [bind, Except.bind] using hg a

theorem ne_fuel_map {α β : Type} {x : Except Err α} (g : α → β)
    (hx : x ≠ .error .fuelOut) : x.map g ≠ .error .fuelOut := by
  cases x with
  | error e => simpa [Except.map] using hx
  | ok a => simp [Except.map]

theorem _type_ne_fuel (treg : List String) (kvs : List (String × PyVal)) :
    _type treg kvs ≠ .error .fuelOut := by
  unfold _type
  repeat' split
  all_goals try simp [Except.map]
  all_goals repeat' split
  all_goals simp

theorem _validator_ne_fuel (vreg : List String) (key : String)
    (kvs : List (String × PyVal)) :
    _validator vreg key kvs ≠ .error .fuelOut := by
  unfold _validator
  repeat' split
  all_goals simp [bind, Except.bind, Except.map]

theorem _str_to_spec_ne_fuel (treg vreg : List String) (key : String)
    (value : PyVal) : _str_to_spec treg vreg key value ≠ .error .fuelOut := by
  cases value with
  | vdict kvs =>
      simp only [_str_to_spec]
      by_cases ht : (dictGet kvs "type").isSome = true
      · rcases h1 : _type treg kvs with e | tw
        · simp [ht, h1, bind, Except.bind, Except.map]
          intro hc
          subst hc
          exact _type_ne_fuel treg kvs h1
        · by_cases hv : (dictGet (dictSet kvs "type" tw.1) "validator").isSome = true
          · rcases h2 : _validator vreg key (dictSet kvs "type" tw.1) with e | vv
            · simp [ht, h1, hv, h2, bind, Except.bind, Except.map]
              intro hc
              subst hc
              exact _validator_ne_fuel vreg key _ h2
            · simp [ht, h1, hv, h2, bind, Except.bind, Except.map]
          · simp [ht, h1, hv, bind, Except.bind, Except.map]
      · by_cases hv : (dictGet kvs "validator").isSome = true
        · rcases h2 : _validator vreg key kvs with e | vv
          · simp [ht, hv, h2, bind, Except.bind, Except.map]
            intro hc
            subst hc
            exact _validator_ne_fuel vreg key _ h2
          · simp [ht, hv, h2, bind, Except.bind, Except.map]
        · simp [ht, hv, bind, Except.bind, Except.map]
  | vlist xs => simp only [_str_to_spec]; split <;> simp
  | vstr s => simp only [_str_to_spec]; split <;> simp
  | _ => simp [_str_to_spec]

theorem extractField_ne_fuel (k : String) (v : PyVal) :
    extractField k v ≠ .error .fuelOut := by
  unfold extractField
  split <;> simp

theorem pyItems_ne_fuel (v : PyVal) : pyItems v ≠ .error .fuelOut := by
  cases v <;> simp [pyItems]

theorem mapE_ne_fuel {α β : Type} (f : α → Except Err β)
    (hf : ∀ a, f a ≠ .error .fuelOut) (l : List α) :
    mapE f l ≠ .error .fuelOut := by
  induction l with
  | nil => simp [mapE]
  | cons a as ih =>
      unfold mapE
      cases hx : f a with
      | error e =>
          intro hc
          injection hc with hc2
          exact hf a (by rw [hx, hc2])
      | ok b => exact ne_fuel_map _ ih

theorem _spec_to_type_ne_fuel (key : String) (value : PyVal)
    (bases : List BaseCap) : _spec_to_type key value bases ≠ .error .fuelOut := by
  cases value with
  | vdict kvs =>
      simp only [_spec_to_type]
      apply ne_fuel_bind
      · exact mapE_ne_fuel _
          (fun kv : String × PyVal => extractField_ne_fuel kv.1 kv.2) _
      · intro fields
        apply ne_fuel_bind
        · exact mapE_ne_fuel _
            (fun kv : String × PyVal => pyItems_ne_fuel _) _
        · intro nss
          simp
  | _ => simp [_spec_to_type]

theorem _nested_type_ne_fuel (treg vreg : List String) (key : String)
    (value : PyVal) : _nested_type treg vreg key value ≠ .error .fuelOut := by
  unfold _nested_type
  apply ne_fuel_bind
  · exact _spec_to_type_ne_fuel key value []
  · intro t
    apply ne_fuel_bind
    · exact _str_to_spec_ne_fuel treg vreg key value
    · intro vw
      simp

theorem assignKeys_ne_fuel (p : Path) : ∀ (v x : PyVal),
    assignKeys v p x ≠ .error .fuelOut := by
  induction p with
  | nil => intro v x; cases v <;> simp [assignKeys]
  | cons k rest ih =>
      intro v x
      cases v <;> try (cases k <;> simp [assignKeys])
      case cons.vdict.str kvs s =>
        split
        · simp
        · rcases hg : dictGet kvs s with _ | child <;> simp only [hg]
          · simp
          · exact ne_fuel_map _ (ih child x)
      case cons.vlist.idx vs n =>
        split
        · split <;> simp
        · rcases hg : vs[n]? with _ | child <;> simp only [hg]
          · simp
          · exact ne_fuel_map _ (ih child x)

theorem _update_inplace_ne_fuel
    (f : String → PyVal → Except Err (PyVal × Bool))
    (hf : ∀ k v, f k v ≠ .error .fuelOut) (st : PyVal × Bool) (path : Path) :
    _update_inplace f st path ≠ .error .fuelOut := by
  unfold _update_inplace
  rcases hl : path.getLast? with _ | k <;> simp only [hl, bind, Except.bind]
  · simp
  · rcases hr : resolveKeys st.1 path with _ | target <;>
      simp only [hr, bind, Except.bind]
    · simp
    · rcases hstep : f (keyStr k) target with e | rw2 <;>
        simp only [hstep, bind, Except.bind]
      · intro hc
        injection hc with hc2
        subst hc2
        exact hf _ _ hstep
      · rcases ha : assignKeys st.1 path rw2.1 with e | conf <;>
          simp only [ha, bind, Except.bind]
        · intro hc
          injection hc with hc2
          subst hc2
          exact assignKeys_ne_fuel path st.1 rw2.1 ha
        · simp

theorem foldE_ne_fuel {σ α : Type} (f : σ → α → Except Err σ)
    (hf : ∀ st a, f st a ≠ .error .fuelOut) (l : List α) :
    ∀ st : σ, foldE f st l ≠ .error .fuelOut := by
  induction l with
  | nil => intro st; simp [foldE]
  | cons a as ih =>
      intro st
      unfold foldE
      cases hx : f st a with
      | error e =>
          intro hc
          injection hc with hc2
          exact hf st a (by rw [hx, hc2])
      | ok st2 => exact ih st2

theorem length_le_maxLen (ps : List Path) (p : Path) (h : p ∈ ps) :
    p.length ≤ maxLen ps := by
  induction ps with
  | nil => cases h
  | cons a as ih =>
      rcases List.mem_cons.mp h with rfl | h2
      · exact Nat.le_max_left _ _
      · exact le_trans (ih h2) (Nat.le_max_right _ _)

theorem maxLen_le (ps : List Path) (n : Nat) (h : ∀ p ∈ ps, p.length ≤ n) :
    maxLen ps ≤ n := by
  induction ps with
  | nil => exact Nat.zero_le n
  | cons a as ih =>
      exact Nat.max_le.mpr ⟨h a (List.mem_cons_self a as),
        ih (fun p hp => h p (List.mem_cons_of_mem a hp))⟩

theorem mem_nextRing (bs : List Path) (q : Path) (h : q ∈ nextRing bs) :
    q ≠ [] ∧ ∃ p ∈ bs, p.dropLast = q := by
  unfold nextRing at h
  rw [List.mem_dedup] at h
  rcases List.mem_filterMap.mp h with ⟨p, hp, hcond⟩
  by_cases he : p.dropLast.isEmpty
  · simp [he] at hcond
  · simp only [he, Bool.false_eq_true, if_false, if_neg] at hcond
    injection hcond with hc
    subst hc
    exact ⟨by simpa [List.isEmpty_iff] using he, p, hp, rfl⟩

theorem nextRing_lt_maxLen (bs : List Path) (q : Path) (h : q ∈ nextRing bs) :
    q.length < maxLen bs := by
  rcases mem_nextRing bs q h with ⟨hne, p, hp, hq⟩
  have h3 : q.length = p.length - 1 := by rw [← hq, List.length_dropLast]
  have h5 : 1 ≤ q.length := by
    cases q with
    | nil => exact absurd rfl hne
    | cons _ _ => simp
  have h4 : p.length ≤ maxLen bs := length_le_maxLen bs p hp
  omega

theorem nextRing_ne_nil (bs : List Path) (q : Path) (h : q ∈ nextRing bs) :
    q ≠ [] := (mem_nextRing bs q h).1

theorem ringSeq_length_le : ∀ (fuel : Nat) (bs : List Path),
    (∀ p ∈ bs, p ≠ []) → maxLen bs ≤ fuel →
    (ringSeq fuel bs).length ≤ maxLen bs := by
  intro fuel
  induction fuel with
  | zero =>
      intro bs h hm
      cases bs with
      | nil => simp [ringSeq]
      | cons a as =>
          have h1 : a.length ≤ 0 :=
            le_trans (length_le_maxLen _ a (List.mem_cons_self a as)) hm
          have h2 : a ≠ [] := h a (List.mem_cons_self a as)
          cases a with
          | nil => exact absurd rfl h2
          | cons x xs => simp at h1
  | succ fuel ih =>
      intro bs h hm
      cases bs with
      | nil => simp [ringSeq]
      | cons a as =>
          have hmax1 : 1 ≤ maxLen (a :: as) := by
            have h2 : a ≠ [] := h a (List.mem_cons_self a as)
            have : 1 ≤ a.length := by
              cases a with
              | nil => exact absurd rfl h2
              | cons x xs => simp
            exact le_trans this (length_le_maxLen _ a (List.mem_cons_self a as))
          have hnextlen : maxLen (nextRing (a :: as)) ≤ maxLen (a :: as) - 1 :=
            maxLen_le _ _ (fun q hq =>
              Nat.le_sub_one_of_lt (nextRing_lt_maxLen _ q hq))
          have hstep : (ringSeq fuel (nextRing (a :: as))).length ≤
              maxLen (nextRing (a :: as)) :=
            ih (nextRing (a :: as)) (fun q hq => nextRing_ne_nil _ q hq)
              (le_trans hnextlen (by omega))
          have hr : ringSeq (fuel + 1) (a :: as) =
              (a :: as) :: ringSeq fuel (nextRing (a :: as)) := rfl
          rw [hr]
          simp only [List.length_cons]
          omega

theorem branchRounds_ne_fuel
    (f : (PyVal × Bool) → Path → Except Err (PyVal × Bool))
    (hf : ∀ st p, f st p ≠ .error .fuelOut) :
    ∀ (fuel : Nat) (bs : List Path) (st : PyVal × Bool),
    (∀ p ∈ bs, p ≠ []) → maxLen bs ≤ fuel →
    branchRounds f fuel bs st ≠ .error .fuelOut := by
  intro fuel
  induction fuel with
  | zero =>
      intro bs st h hm
      cases bs with
      | nil => simp [branchRounds]
      | cons a as =>
          have h1 : a.length ≤ 0 :=
            le_trans (length_le_maxLen _ a (List.mem_cons_self a as)) hm
          have h2 : a ≠ [] := h a (List.mem_cons_self a as)
          cases a with
          | nil => exact absurd rfl h2
          | cons x xs => simp at h1
  | succ fuel ih =>
      intro bs st h hm
      cases bs with
      | nil => simp [branchRounds]
      | cons a as =>
          have hr : branchRounds f (fuel + 1) (a :: as) st =
              (match foldE f st (a :: as) with
               | .error e => .error e
               | .ok st2 => branchRounds f fuel (nextRing (a :: as)) st2) := rfl
          rw [hr]
          cases hx : foldE f st (a :: as) with
          | error e =>
              simp only [hx]
              intro hc
              injection hc with hc2
              exact foldE_ne_fuel f hf (a :: as) st (by rw [hx, hc2])
          | ok st2 =>
              simp only [hx]
              have hnextlen : maxLen (nextRing (a :: as)) ≤ fuel := by
                have := fun q hq => Nat.le_sub_one_of_lt
                  (nextRing_lt_maxLen (a :: as) q hq)
                have h3 := maxLen_le (nextRing (a :: as)) (maxLen (a :: as) - 1)
                  this
                omega
              exact ih (nextRing (a :: as)) st2
                (fun q hq => nextRing_ne_nil _ q hq) hnextlen

theorem nodes_ne_nil (conf : PyVal) (p : Path) (h : p ∈ _nodes conf) :
    p ≠ [] := by
  unfold _nodes at h
  rw [List.mem_dedup] at h
  rcases List.mem_filterMap.mp h with ⟨e, he, hcond⟩
  rcases List.mem_cons.mp he with rfl | he2
  · simp [_is_node] at hcond
  · rcases List.mem_map.mp he2 with ⟨w, hw, hwe⟩
    subst hwe
    by_cases hn : _is_node w.1 (some w.2.1) w.2.2 = true
    · rw [if_pos hn] at hcond
      injection hcond with hc
      subst hc
      simp
    · rw [if_neg hn] at hcond
      exact Option.noConfusion hcond

theorem branches_subset_nodes (conf : PyVal) (p : Path)
    (h : p ∈ _leaves ((_nodes conf).filter
      (fun q => !(_is_leaf q (_nodes conf))))) : p ∈ _nodes conf := by
  unfold _leaves at h
  exact (List.mem_filter.mp (List.mem_filter.mp h).1).1

/-! ### C1 and C9: the while loop's round schedule -/

/-- C1 (failing input): for `confUneven` the while loop's rings are
`[{(a,d), (a,b,c)}, {(a,), (a,b)}, {(a,)}]`: round 2 is the parent set of
round 1, so the branch `("a",)` is resolved in the same round as its
node-path child `("a","b")` — not in a strictly later one — and is
processed again in round 3, whereas the claim's round-2 schedule
`leaves(remaining)` would be `{("a","b")}` alone.  On this document
`get_config_t` raises a path access error instead of returning a type. -/
theorem c1_failing_input :
    ringsOf confUneven =
      [[[Key.str "a", Key.str "d"], [Key.str "a", Key.str "b", Key.str "c"]],
       [[Key.str "a"], [Key.str "a", Key.str "b"]],
       [[Key.str "a"]]] ∧
    [Key.str "a", Key.str "b"] ∈ _nodes confUneven ∧
    _leaves [[Key.str "a"], [Key.str "a", Key.str "b"]] =
      [[Key.str "a", Key.str "b"]] ∧
    get_config_t ["int"] [] confUneven = .error .pathError := by
  refine ⟨by decide, by decide, by decide, rfl⟩

/-- C9 (counterexample): the branch path `("a",)` of `confUneven` is
processed in round 2 and again in round 3 of the while loop, so branches
are not resolved exactly once and removed. -/
theorem c9_counterexample :
    [Key.str "a"] ∈ (ringsOf confUneven).getD 1 [] ∧
    [Key.str "a"] ∈ (ringsOf confUneven).getD 2 [] := by
  constructor <;> decide

/-- C9 (amended): the fold driver's round loop terminates for every finite
input document — the loop's round budget, the length of the longest
branch path, is never exhausted — and the number of rounds is bounded by
the document depth (the longest node path); however a branch path may be
processed in more than one round rather than exactly once. -/
theorem c9_amended :
    (∀ (treg vreg : List String) (conf : PyVal),
      get_config_t treg vreg conf ≠ .error .fuelOut) ∧
    (∀ conf : PyVal, (ringsOf conf).length ≤ maxLen (_nodes conf)) := by
  constructor
  · intro treg vreg conf
    unfold get_config_t
    apply ne_fuel_bind
    · exact foldE_ne_fuel _ (fun st p => _update_inplace_ne_fuel _
        (fun k v => _str_to_spec_ne_fuel treg vreg k v) st p) _ _
    · intro st1
      apply ne_fuel_bind
      · apply branchRounds_ne_fuel
        · exact fun st p => _update_inplace_ne_fuel _
            (fun k v => _nested_type_ne_fuel treg vreg k v) st p
        · intro p hp
          exact nodes_ne_nil conf p (branches_subset_nodes conf p hp)
        · exact le_refl _
      · intro st2
        apply ne_fuel_bind
        · exact _spec_to_type_ne_fuel _ _ _
        · intro t
          simp
  · intro conf
    have hsub : ∀ p ∈ _leaves ((_nodes conf).filter
        (fun q => !(_is_leaf q (_nodes conf)))), p ∈ _nodes conf :=
      branches_subset_nodes conf
    have h1 : ∀ p ∈ _leaves ((_nodes conf).filter
        (fun q => !(_is_leaf q (_nodes conf)))), p ≠ [] :=
      fun p hp => nodes_ne_nil conf p (hsub p hp)
    have h2 := ringSeq_length_le _ _ h1 (le_refl _)
    have h3 : maxLen (_leaves ((_nodes conf).filter
        (fun q => !(_is_leaf q (_nodes conf))))) ≤ maxLen (_nodes conf) :=
      maxLen_le _ _ (fun p hp => length_le_maxLen _ p (hsub p hp))
    exact le_trans h2 h3

/-- C9 (witness): the amended bounds at concrete documents. -/
theorem c9_amended_witness :
    get_config_t ["int"] [] confOne ≠ .error .fuelOut ∧
    (ringsOf confUneven).length ≤ maxLen (_nodes confUneven) :=
  ⟨c9_amended.1 ["int"] [] confOne, c9_amended.2 confUneven⟩

/-! ### C6: unknown registry names abort the synthesis -/

theorem _type_bad (treg : List String) (kvs : List (String × PyVal))
    (n : String) (ht : dictGet kvs "type" = some (.vstr n))
    (hn : treg.contains n = false) :
    _type treg kvs = .error (.lookupError n) := by
  have hn2 : ¬ n ∈ treg := by simpa using hn
  simp [_type, ht, hn2, Except.map]

theorem _validator_bad (vreg : List String) (key : String)
    (kvs : List (String × PyVal)) (s : String)
    (hv : dictGet kvs "validator" = some (.vstr s))
    (hs : vreg.contains s = false) :
    _validator vreg key kvs = .error (.lookupError s) := by
  have hs2 : ¬ s ∈ vreg := by simpa using hs
  simp [_validator, hv, hs2, bind, Except.bind]

theorem badRule_validator (treg vreg : List String)
    (kvs : List (String × PyVal)) (hb : badRule treg vreg kvs = true)
    (hgood : (match dictGet kvs "type" with
      | some (.vstr n) => !treg.contains n
      | _ => false) = false) :
    ∃ s, dictGet kvs "validator" = some (.vstr s) ∧
      vreg.contains s = false := by
  unfold badRule at hb
  rw [hgood] at hb
  simp only [Bool.false_or] at hb
  rcases hv : dictGet kvs "validator" with _ | vv
  · rw [hv] at hb; simp at hb
  · rw [hv] at hb
    cases vv <;> simp at hb
    exact ⟨_, rfl, by simpa using hb⟩

theorem str_to_spec_bad (treg vreg : List String) (key : String)
    (kvs : List (String × PyVal)) (hb : badRule treg vreg kvs = true) :
    ∃ e, _str_to_spec treg vreg key (.vdict kvs) = .error e := by
  by_cases ht : (dictGet kvs "type").isSome = true
  · rcases h1 : _type treg kvs with e | tw
    · exact ⟨e, by simp [_str_to_spec, ht, h1, bind, Except.bind, Except.map]⟩
    · have hgood : (match dictGet kvs "type" with
          | some (.vstr n) => !treg.contains n
          | _ => false) = false := by
        rcases ht2 : dictGet kvs "type" with _ | tv
        · rfl
        · cases tv <;> try rfl
          case vstr n =>
            by_cases hn : treg.contains n = true
            · simpa using hn
            · have hbadt := _type_bad treg kvs n ht2 (by simpa using hn)
              rw [h1] at hbadt
              exact absurd hbadt (by simp)
      rcases badRule_validator treg vreg kvs hb hgood with ⟨s, hv, hs⟩
      have hv2 : dictGet (dictSet kvs "type" tw.1) "validator" =
          some (.vstr s) := by
        rw [dictGet_dictSet_ne _ _ _ _ (by decide)]
        exact hv
      have hval := _validator_bad vreg key (dictSet kvs "type" tw.1) s hv2 hs
      exact ⟨.lookupError s, by
        simp [_str_to_spec, ht, h1, hv2, hval, bind, Except.bind, Except.map]⟩
  · have ht2 : dictGet kvs "type" = none := by
      rcases h : dictGet kvs "type" with _ | _
      · rfl
      · rw [h] at ht; simp at ht
    have hgood : (match dictGet kvs "type" with
        | some (.vstr n) => !treg.contains n
        | _ => false) = false := by rw [ht2]
    rcases badRule_validator treg vreg kvs hb hgood with ⟨s, hv, hs⟩
    have hval := _validator_bad vreg key kvs s hv hs
    exact ⟨.lookupError s, by
      simp [_str_to_spec, ht, ht2, hv, hval, bind, Except.bind, Except.map]⟩

theorem leads_cons (k : Key) (q p : Path) :
    Leads (k :: q) (k :: p) ↔ Leads q p := by
  constructor
  · rintro ⟨t, ht⟩
    injection ht with h1 h2
    exact ⟨t, h2⟩
  · rintro ⟨t, ht⟩
    exact ⟨t, by rw [List.cons_append, ht]⟩

theorem resolveKeys_assign_ne (q : Path) : ∀ (p : Path) (v x v' : PyVal),
    assignKeys v q x = .ok v' → ¬ Leads q p → ¬ Leads p q →
    resolveKeys v' p = resolveKeys v p := by
  induction q with
  | nil =>
      intro p v x v' ha hqp hpq
      exact absurd ⟨p, rfl⟩ hqp
  | cons kq q' ih =>
      intro p v x v' ha hqp hpq
      cases p with
      | nil => exact absurd ⟨kq :: q', rfl⟩ hpq
      | cons kp p' =>
          cases v with
          | vdict kvs =>
              cases kq with
              | str sq =>
                  by_cases hrest : q'.isEmpty = true
                  · have hq0 : q' = [] := by
                      simpa [List.isEmpty_iff] using hrest
                    subst hq0
                    simp only [assignKeys, List.isEmpty_nil, if_true] at ha
                    injection ha with ha2
                    subst ha2
                    cases kp with
                    | str sp =>
                        by_cases hk : sp = sq
                        · subst hk
                          exact absurd ⟨p', rfl⟩ hqp
                        · simp [resolveKeys,
                            dictGet_dictSet_ne kvs sq sp x (fun hc => hk hc)]
                    | idx m => simp [resolveKeys]
                  · simp only [assignKeys, hrest, Bool.false_eq_true,
                      if_false] at ha
                    split at ha
                    next child hg =>
                      rcases hrec : assignKeys child q' x with e | c <;>
                        rw [hrec] at ha <;> simp only [Except.map] at ha
                      · exact Except.noConfusion ha
                      · injection ha with ha2
                        subst ha2
                        cases kp with
                        | str sp =>
                            by_cases hk : sp = sq
                            · subst hk
                              have hqp2 : ¬ Leads q' p' :=
                                fun hl => hqp ((leads_cons _ _ _).mpr hl)
                              have hpq2 : ¬ Leads p' q' :=
                                fun hl => hpq ((leads_cons _ _ _).mpr hl)
                              have hrec2 := ih p' child x c hrec hqp2 hpq2
                              simp [resolveKeys, dictGet_dictSet_self, hg,
                                hrec2]
                            · simp [resolveKeys,
                                dictGet_dictSet_ne kvs sq sp c
                                  (fun hc => hk hc)]
                        | idx m => simp [resolveKeys]
                    next hg => exact Except.noConfusion ha
              | idx nq => simp [assignKeys] at ha
          | vlist vs =>
              cases kq with
              | str sq => simp [assignKeys] at ha
              | idx nq =>
                  by_cases hrest : q'.isEmpty = true
                  · have hq0 : q' = [] := by
                      simpa [List.isEmpty_iff] using hrest
                    subst hq0
                    simp only [assignKeys, List.isEmpty_nil, if_true] at ha
                    by_cases hlt : nq < vs.length
                    · rw [if_pos hlt] at ha
                      injection ha with ha2
                      subst ha2
                      cases kp with
                      | str sp => simp [resolveKeys]
                      | idx m =>
                          by_cases hk : m = nq
                          · subst hk
                            exact absurd ⟨p', rfl⟩ hqp
                          · simp [resolveKeys,
                              List.getElem?_set_ne (fun hc => hk hc.symm)]
                    · rw [if_neg hlt] at ha
                      exact Except.noConfusion ha
                  · simp only [assignKeys, hrest, Bool.false_eq_true,
                      if_false] at ha
                    split at ha
                    next child hg =>
                      rcases hrec : assignKeys child q' x with e | c <;>
                        rw [hrec] at ha <;> simp only [Except.map] at ha
                      · exact Except.noConfusion ha
                      · injection ha with ha2
                        subst ha2
                        cases kp with
                        | str sp => simp [resolveKeys]
                        | idx m =>
                            by_cases hk : m = nq
                            · subst hk
                              have hqp2 : ¬ Leads q' p' :=
                                fun hl => hqp ((leads_cons _ _ _).mpr hl)
                              have hpq2 : ¬ Leads p' q' :=
                                fun hl => hpq ((leads_cons _ _ _).mpr hl)
                              have hrec2 := ih p' child x c hrec hqp2 hpq2
                              have hlt : m < vs.length := by
                                rcases List.get?_eq_some.mp hg with ⟨hl2, _⟩
                                exact hl2
                              have hg2 : vs[m]? = some child := by
                                rw [← List.get?_eq_getElem?]
                                exact hg
                              simp [resolveKeys,
                                List.getElem?_set_eq_of_lt c hlt, hg2, hrec2]
                            · simp [resolveKeys,
                                List.getElem?_set_ne (fun hc => hk hc.symm)]
                    next hg => exact Except.noConfusion ha
          | vstr s => simp [assignKeys] at ha
          | vint n => simp [assignKeys] at ha
          | vbool b => simp [assignKeys] at ha
          | vnone => simp [assignKeys] at ha
          | vtypeBase n => simp [assignKeys] at ha
          | vtypeParam n a => simp [assignKeys] at ha
          | vtypeKw n a => simp [assignKeys] at ha
          | vmethod a b c d => simp [assignKeys] at ha
          | vclass a b c d => simp [assignKeys] at ha

theorem _update_inplace_ok (f : String → PyVal → Except Err (PyVal × Bool))
    (st st2 : PyVal × Bool) (path : Path)
    (h : _update_inplace f st path = .ok st2) :
    ∃ x, assignKeys st.1 path x = .ok st2.1 := by
  unfold _update_inplace at h
  rcases hl : path.getLast? with _ | k <;> simp only [hl, bind, Except.bind] at h
  · exact Except.noConfusion h
  · rcases hr : resolveKeys st.1 path with _ | target <;>
      simp only [hr, bind, Except.bind] at h
    · exact Except.noConfusion h
    · rcases hstep : f (keyStr k) target with e | rw2 <;>
        simp only [hstep, bind, Except.bind] at h
      · exact Except.noConfusion h
      · rcases ha : assignKeys st.1 path rw2.1 with e | conf <;>
          simp only [ha, bind, Except.bind] at h
        · exact Except.noConfusion h
        · refine ⟨rw2.1, ?_⟩
          rw [ha]
          injection h with h2
          rw [← h2]

theorem keySubset_of_leads (q r : Path) (h : Leads q r) :
    keySubset q r = true := by
  rcases h with ⟨t, rfl⟩
  simp only [keySubset, List.all_eq_true]
  intro k hk
  simp [List.mem_append, hk]

theorem is_leaf_not_subset (r : Path) (paths : List Path)
    (hr : _is_leaf r paths = true) (p : Path) (hp : p ∈ paths)
    (hne : p ≠ r) : keySubset r p = false := by
  unfold _is_leaf at hr
  simp only [Bool.not_eq_true', List.any_eq_false] at hr
  have h3 := hr p hp
  rcases hks : keySubset r p with _ | _
  · rfl
  · simp [hks, hne] at h3

theorem not_leads_of_leaf (paths : List Path) (q p : Path)
    (hq : _is_leaf q paths = true) (hp : p ∈ paths) (hne : p ≠ q) :
    ¬ Leads q p := fun hl => by
  have h1 := keySubset_of_leads q p hl
  have h2 := is_leaf_not_subset q paths hq p hp hne
  rw [h1] at h2
  exact Bool.noConfusion h2

theorem foldE_update_bad (treg vreg : List String) (p : Path)
    (bad : List (String × PyVal)) (hbadr : badRule treg vreg bad = true) :
    ∀ (l : List Path) (st : PyVal × Bool),
    (∀ q ∈ l, q = p ∨ (¬ Leads q p ∧ ¬ Leads p q)) → p ∈ l →
    resolveKeys st.1 p = some (.vdict bad) →
    ∃ e, foldE (_update_inplace (_str_to_spec treg vreg)) st l = .error e := by
  intro l
  induction l with
  | nil => intro st _ hp _; cases hp
  | cons h t iht =>
      intro st hpair hp hres
      by_cases hhp : h = p
      · subst hhp
        rcases hl : h.getLast? with _ | k
        · refine ⟨.pathError, ?_⟩
          have hstep : _update_inplace (_str_to_spec treg vreg) st h =
              .error .pathError := by
            simp [_update_inplace, hl, bind, Except.bind]
          simp only [foldE, hstep]
        · rcases str_to_spec_bad treg vreg (keyStr k) bad hbadr with ⟨e, he⟩
          refine ⟨e, ?_⟩
          have hstep : _update_inplace (_str_to_spec treg vreg) st h =
              .error e := by
            simp [_update_inplace, hl, hres, he, bind, Except.bind]
          simp only [foldE, hstep]
      · rcases hstep : _update_inplace (_str_to_spec treg vreg) st h
            with e | st2
        · exact ⟨e, by simp only [foldE, hstep]⟩
        · have hp2 : p ∈ t := by
            rcases List.mem_cons.mp hp with rfl | hp2
            · exact absurd rfl hhp
            · exact hp2
          rcases hpair h (List.mem_cons_self h t) with rfl | ⟨hqp, hpq⟩
          · exact absurd rfl hhp
          · rcases _update_inplace_ok _ st st2 h hstep with ⟨x, hassign⟩
            have hpres := resolveKeys_assign_ne h p st.1 x st2.1
              hassign hqp hpq
            rcases iht st2 (fun q hq => hpair q (List.mem_cons_of_mem h hq))
              hp2 (by rw [hpres]; exact hres) with ⟨e, he⟩
            exact ⟨e, by simp only [foldE, hstep, he]⟩

/-- C6: if a leaf rule of the document names a type or validator absent
from the corresponding external registry, `get_config_t` fails with an
error before any composite type is returned; no partial composite type is
produced. -/
theorem c6_unknown_name (treg vreg : List String) (conf : PyVal) (p : Path)
    (hp : p ∈ _leaves (_nodes conf))
    (hbad : badLeafAt treg vreg conf p = true) :
    ∃ e, get_config_t treg vreg conf = .error e := by
  rcases hres : resolveKeys conf p with _ | v
  · rw [badLeafAt, hres] at hbad
    exact Bool.noConfusion hbad
  · rcases hv : v with s | n | b | _ | l | bad | tb | ⟨tn, ta⟩ | ⟨kn, ka⟩ |
      ⟨m1, m2, m3, m4⟩ | ⟨c1, c2, c3, c4⟩ <;>
      rw [badLeafAt, hres, hv] at hbad <;> try exact Bool.noConfusion hbad
    subst hv
    have hpair : ∀ q ∈ _leaves (_nodes conf),
        q = p ∨ (¬ Leads q p ∧ ¬ Leads p q) := by
      intro q hq
      by_cases hqp : q = p
      · exact Or.inl hqp
      · refine Or.inr ⟨?_, ?_⟩
        · exact not_leads_of_leaf (_nodes conf) q p
            (List.mem_filter.mp hq).2 (List.mem_filter.mp hp).1
            (fun hc => hqp hc.symm)
        · exact fun hl => (not_leads_of_leaf (_nodes conf) p q
            (List.mem_filter.mp hp).2 (List.mem_filter.mp hq).1 hqp) hl
    rcases foldE_update_bad treg vreg p bad hbad (_leaves (_nodes conf))
      (conf, false) hpair hp hres with ⟨e, he⟩
    refine ⟨e, ?_⟩
    unfold get_config_t
    simp only [he, bind, Except.bind]

/-- C6 (witness): the document `{"a": {"type": "nope"}}` against an empty
type registry aborts with the lookup error for `"nope"`. -/
theorem c6_unknown_name_witness :
    (∃ e, get_config_t [] [] confBadName = .error e) ∧
    get_config_t [] [] confBadName = .error (.lookupError "nope") :=
  ⟨c6_unknown_name [] [] confBadName [Key.str "a"] (by decide) (by decide),
   rfl⟩

end Dataconfig
